import Mathlib

/-!
# Verification of the LE-pricer price knowledge base and template matchers

This file gives a shallow embedding of the core of the LE-pricer repository
(`src/db.py`, `src/template_manager.py`, `src/scripts/migrate_prices_lp.py`)
and proves or refutes the frozen specification claims about it.

Conventions of the embedding:
* Python strings are Lean `String`s; Python `str.strip()` / `str.lower()` are
  modelled by `pyStrip` / `pyLower` (Latin and Cyrillic letters, the only
  alphabets the program handles).
* Python floats carry only stored prices and match scores here — the program
  performs no rounding-sensitive arithmetic on them — so they are modelled
  by `ℚ`.
* The external `rapidfuzz` similarity functions are an oracle parameter
  (`Fuzz`); theorems hold for every oracle, and concrete statements
  instantiate it with `zeroFuzz`.
* OpenCV correlation surfaces are external inputs: the per-template maxima
  and per-item raw peak lists are taken as arguments of the matcher models.
* Disk writes are tracked where a claim mentions them (the `Bool` component
  returned by `editKnown`).
-/

namespace Pricer

/-- Whitespace for Python's `str.strip()` (the ASCII fragment used here). -/
def isPyWS (c : Char) : Bool :=
  c = ' ' || c = '\t' || c = '\n' || c = '\r' || c = '\x0b' || c = '\x0c'

/-- Python `str.strip()` on a character list. -/
def stripL (l : List Char) : List Char :=
  ((l.dropWhile isPyWS).reverse.dropWhile isPyWS).reverse

/-- Python `str.strip()`: drop whitespace from both ends. -/
def pyStrip (s : String) : String :=
  String.mk (stripL s.data)

/-- Python `str.lower()` on one character, for the Latin and Cyrillic
(А..Я, Ё) alphabets the program manipulates. -/
def pyLowerChar (c : Char) : Char :=
  if 'A' ≤ c ∧ c ≤ 'Z' then Char.ofNat (c.toNat + 32)
  else if 'А' ≤ c ∧ c ≤ 'Я' then Char.ofNat (c.toNat + 32)
  else if c = 'Ё' then 'ё'
  else c

/-- Python `str.lower()`. -/
def pyLower (s : String) : String :=
  String.mk (s.data.map pyLowerChar)

/-- `db._norm`: `(name or "").strip().lower()`. -/
def normName (s : String) : String :=
  pyLower (pyStrip s)

/-- A character kept verbatim by `_clean_for_match`'s regex
`[^0-9a-zа-я ]+`: digit, Latin lowercase, Cyrillic lowercase а..я, space. -/
def keepChar (c : Char) : Bool :=
  ('0' ≤ c ∧ c ≤ '9') || ('a' ≤ c ∧ c ≤ 'z') || ('а' ≤ c ∧ c ≤ 'я') || c = ' '

/-- `ё` → `е` folding done by `_clean_for_match` before the regex. -/
def yoFold (c : Char) : Char :=
  if c = 'ё' then 'е' else c

/-- Split a character list into maximal space-free words. -/
def splitWAux : List Char → List Char → List (List Char)
  | [], cur => if cur = [] then [] else [cur.reverse]
  | c :: cs, cur =>
      if c = ' ' then
        if cur = [] then splitWAux cs [] else cur.reverse :: splitWAux cs []
      else splitWAux cs (c :: cur)

def splitW (l : List Char) : List (List Char) := splitWAux l []

/-- Join words with single spaces (the effect of `re.sub(r"\s+", " ", s).strip()`). -/
def joinW : List (List Char) → List Char
  | [] => []
  | [w] => w
  | w :: ws => w ++ ' ' :: joinW ws

/-- Per-character step of `_clean_for_match`: lowercase, fold `ё`, map every
non-kept character to a space. -/
def cleanCharFn (c : Char) : Char :=
  let c := yoFold (pyLowerChar c)
  if keepChar c then c else ' '

/-- Normalisation pipeline of `_clean_for_match` on a character list:
per-character cleaning, then collapse runs of spaces and strip the ends. -/
def cleanList (l : List Char) : List Char :=
  joinW (splitW (l.map cleanCharFn))

/-- `db._clean_for_match`. -/
def cleanForMatch (s : String) : String :=
  String.mk (cleanList s.data)

/-- The `_SHAPE_MAP` translation table of `db.py` (visual look-alike folding). -/
def shapeMapChar (c : Char) : Char :=
  match c with
  | 'А' => 'A' | 'В' => 'B' | 'С' => 'C' | 'Е' => 'E' | 'К' => 'K' | 'М' => 'M'
  | 'Н' => 'H' | 'О' => 'O' | 'Р' => 'P' | 'Т' => 'T' | 'Х' => 'X' | 'У' => 'Y'
  | 'Ш' => 'W' | 'Щ' => 'W' | 'Ь' => 'b' | 'Я' => 'R' | 'Л' => 'A'
  | 'а' => 'a' | 'в' => 'b' | 'с' => 'c' | 'е' => 'e' | 'к' => 'k' | 'м' => 'm'
  | 'н' => 'h' | 'о' => 'o' | 'р' => 'p' | 'т' => 't' | 'х' => 'x' | 'у' => 'y'
  | 'ш' => 'w' | 'щ' => 'w' | 'ь' => 'b' | 'я' => 'r' | 'л' => 'a'
  | '0' => 'o' | '3' => 'e' | '4' => 'a' | '6' => 'b' | '8' => 'b'
  | other => other

/-- `db._shape_fold`: strip, translate through `_SHAPE_MAP`, lowercase. -/
def shapeFold (s : String) : String :=
  pyLower (String.mk ((pyStrip s).data.map shapeMapChar))

/-- The `_RU2LAT` transliteration table of `db.py`. -/
def ru2lat (c : Char) : List Char :=
  match c with
  | 'а' => ['a'] | 'б' => ['b'] | 'в' => ['v'] | 'г' => ['g'] | 'д' => ['d']
  | 'е' => ['e'] | 'ё' => ['e'] | 'ж' => ['z', 'h'] | 'з' => ['z'] | 'и' => ['i']
  | 'й' => ['i'] | 'к' => ['k'] | 'л' => ['l'] | 'м' => ['m'] | 'н' => ['n']
  | 'о' => ['o'] | 'п' => ['p'] | 'р' => ['r'] | 'с' => ['s'] | 'т' => ['t']
  | 'у' => ['u'] | 'ф' => ['f'] | 'х' => ['h'] | 'ц' => ['t', 's']
  | 'ч' => ['c', 'h'] | 'ш' => ['s', 'h'] | 'щ' => ['s', 'h', 'c', 'h']
  | 'ы' => ['y'] | 'э' => ['e'] | 'ю' => ['y', 'u'] | 'я' => ['y', 'a']
  | other => [other]

/-- `db._translit_ru_to_lat`: lowercase, then transliterate per character. -/
def translitRuToLat (s : String) : String :=
  String.mk ((pyLower s).data.flatMap ru2lat)

/-- Python substring test `needle in hay` on character lists. -/
def listContains (pat l : List Char) : Bool :=
  if pat.length = 0 then true
  else (List.range (l.length + 1)).any (fun i => (l.drop i).take pat.length == pat)

/-- Python `needle in hay` for strings. -/
def pySubstr (needle hay : String) : Bool :=
  listContains needle.data hay.data

/-- A price value handed to the database: a Python number or a string. -/
inductive PyPrice where
  | num (q : ℚ)
  | txt (s : String)
deriving DecidableEq, Repr

def digitsToNat (cs : List Char) : ℕ :=
  cs.foldl (fun a c => a * 10 + (c.toNat - 48)) 0

def allDigits (cs : List Char) : Bool :=
  cs.all (fun c => c.isDigit)

/-- Model of Python's `float()` on the plain decimal literals this program
relies on: optional sign, digits, at most one decimal point.  Exotic forms
(exponents, `inf`, underscores) are rejected, which the program treats the
same as a parse failure. -/
def pyFloat? (s : String) : Option ℚ :=
  let cs := (pyStrip s).data
  let signed : ℚ × List Char :=
    match cs with
    | '+' :: r => (1, r)
    | '-' :: r => (-1, r)
    | _ => (1, cs)
  let sign := signed.1
  let body := signed.2
  let intPart := body.takeWhile (fun c => c ≠ '.')
  match body.dropWhile (fun c => c ≠ '.') with
  | [] =>
      if intPart ≠ [] ∧ allDigits intPart then
        some (sign * (digitsToNat intPart : ℚ))
      else none
  | _ :: frac =>
      if allDigits intPart ∧ allDigits frac ∧ (intPart ≠ [] ∨ frac ≠ []) then
        some (sign * ((digitsToNat intPart : ℚ) +
          (digitsToNat frac : ℚ) / (10 : ℚ) ^ frac.length))
      else none

/-- Python `s.replace(',', '.')` (the only `replace` the program performs —
a single-character pattern, so a per-character map). -/
def commaFold (s : String) : String :=
  String.mk (s.data.map (fun c => if c = ',' then '.' else c))

/-- `db._normalize_comment`. -/
def normalizeComment (v : Option String) : Option String :=
  match v with
  | none => none
  | some s => let t := pyStrip s; if t = "" then none else some t

/-- `db._coerce_price_text`: numeric values pass through, text parses as a
float after comma folding, otherwise is kept as a comment. -/
def coercePriceText (v : Option PyPrice) : Option ℚ × Option String :=
  match v with
  | none => (none, none)
  | some (.num q) => (some q, none)
  | some (.txt s) =>
      let t := pyStrip s
      if t = "" then (none, none)
      else
        match pyFloat? (commaFold t) with
        | some q => (some q, none)
        | none => (none, some t)

/-- A price entry (`db.py` LP schema): display name, notes, timestamps and a
price and comment slot for each potential 0..4 (`prices`/`comments` are
5-element lists indexed by the LP slot). -/
structure Entry where
  name : String
  notes : Option String
  createdAt : String
  updatedAt : String
  prices : List (Option ℚ)
  comments : List (Option String)
deriving DecidableEq, Repr

/-- `entry.get(f"price_lp{pot}")`: slots outside 0..4 read as absent. -/
def Entry.priceAt (e : Entry) (pot : ℤ) : Option ℚ :=
  if 0 ≤ pot ∧ pot < 5 then e.prices.getD pot.toNat none else none

/-- `entry.get(f"comment_lp{pot}")`. -/
def Entry.commentAt (e : Entry) (pot : ℤ) : Option String :=
  if 0 ≤ pot ∧ pot < 5 then e.comments.getD pot.toNat none else none

def Entry.setPriceAt (e : Entry) (pot : ℤ) (v : Option ℚ) : Entry :=
  { e with prices := e.prices.set pot.toNat v }

def Entry.setCommentAt (e : Entry) (pot : ℤ) (v : Option String) : Entry :=
  { e with comments := e.comments.set pot.toNat v }

/-- `db._entry_has_lp`: a slot is populated if it has a numeric price or a
non-blank comment. -/
def entryHasLp (e : Entry) (pot : ℤ) : Bool :=
  (e.priceAt pot).isSome ||
    (match e.commentAt pot with
     | some c => pyStrip c ≠ ""
     | none => false)

/-- The value a slot displays: a comment or a numeric price. -/
abbrev DisplayVal := Option (String ⊕ ℚ)

/-- `db._lp_display_value`: show the comment when present and non-blank,
otherwise the numeric price (possibly absent). -/
def lpDisplayValue (e : Entry) (pot : ℤ) : DisplayVal :=
  match e.commentAt pot with
  | some c => if pyStrip c ≠ "" then some (.inl c) else (e.priceAt pot).map .inr
  | none => (e.priceAt pot).map .inr

/-- A pending (seen but unpriced) record. -/
structure PendingRec where
  name : String
  potential : Option ℤ
  addedAt : String
deriving DecidableEq, Repr

/-- The in-memory store state: the `known` mapping is an insertion-ordered
association list (a Python dict), plus the display order and pending queue. -/
structure DB where
  known : List (String × Entry)
  knownOrder : List String
  pending : List PendingRec
deriving DecidableEq, Repr

def DB.empty : DB := ⟨[], [], []⟩

/-- Dict lookup `m.get(k)`. -/
def aGet (m : List (String × Entry)) (k : String) : Option Entry :=
  (m.find? (fun p => p.1 == k)).map (·.2)

/-- Dict membership `k in m`. -/
def aHas (m : List (String × Entry)) (k : String) : Bool :=
  m.any (fun p => p.1 == k)

/-- Dict assignment `m[k] = v`: replace in place if present, else append. -/
def aSet (m : List (String × Entry)) (k : String) (v : Entry) :
    List (String × Entry) :=
  if aHas m k then m.map (fun p => if p.1 == k then (k, v) else p)
  else m ++ [(k, v)]

/-- Dict deletion `del m[k]`. -/
def aDel (m : List (String × Entry)) (k : String) : List (String × Entry) :=
  m.filter (fun p => !(p.1 == k))

/-- `PriceDB._make_entry`. -/
def makeEntry (name now : String) : Entry :=
  { name := pyStrip name
    notes := none
    createdAt := now
    updatedAt := now
    prices := List.replicate 5 none
    comments := List.replicate 5 none }

/-- `PriceDB._ensure_entry_locked`.  `draft` stands in for the fresh
`__draft_{uuid}` placeholder generated for empty canonical names (the
collision-avoidance loop around `uuid4` is external randomness; theorems
below never rely on a particular draft key). -/
def ensureEntryLocked (name draft now : String) (db : DB) :
    String × Entry × Bool × DB :=
  let canonical := normName name
  match aGet db.known canonical with
  | some e =>
      if canonical ≠ "" then (canonical, e, false, db)
      else
        let key := draft
        let entry := makeEntry name now
        let known := aSet db.known key entry
        let order :=
          if db.knownOrder.contains key then db.knownOrder
          else db.knownOrder ++ [key]
        (key, entry, true, { db with known := known, knownOrder := order })
  | none =>
      let key := if canonical ≠ "" then canonical else draft
      let entry := makeEntry name now
      let known := aSet db.known key entry
      let order :=
        if db.knownOrder.contains key then db.knownOrder
        else db.knownOrder ++ [key]
      (key, entry, true, { db with known := known, knownOrder := order })

/-- `PriceDB._remove_pending_locked`: drop every pending record whose
canonical name is among the non-empty targets; report whether any went. -/
def removePendingLocked (names : List String) (db : DB) : Bool × DB :=
  let targets := names.filter (fun n => n ≠ "")
  if targets = [] then (false, db)
  else
    let pend :=
      db.pending.filter (fun p => !(targets.contains (normName p.name)))
    (pend.length ≠ db.pending.length, { db with pending := pend })

/-- First pending record whose canonical name matches, back-filled with the
potential hint when it lacked one (`PriceDB.ensure_pending`'s scan); `none`
when no record matches. -/
def pendingTouch (canonical : String) (pot : Option ℤ) :
    List PendingRec → Option (List PendingRec)
  | [] => none
  | p :: ps =>
      if normName p.name = canonical then
        some ((if pot.isSome ∧ p.potential = none
               then { p with potential := pot } else p) :: ps)
      else (pendingTouch canonical pot ps).map (p :: ·)

/-- `PriceDB.ensure_pending`. -/
def ensurePending (name : String) (pot : Option ℤ) (now : String) (db : DB) :
    Bool × DB :=
  let canonical := normName name
  if canonical ≠ "" ∧ aHas db.known canonical then (false, db)
  else if canonical ≠ "" ∧
      db.known.any (fun ke => normName ke.2.name == canonical) then (false, db)
  else
    match pendingTouch canonical pot db.pending with
    | some pend => (false, { db with pending := pend })
    | none =>
        (true, { db with pending :=
          db.pending ++ [⟨pyStrip name, pot, now⟩] })

/-- `PriceDB.set_price`.  Raising `ValueError` on a bad slot is the
`Except.error` result (it happens before any state change). -/
def setPrice (name : String) (price : ℚ) (potential : Option ℤ)
    (now draft : String) (db : DB) : Except String (String × DB) :=
  let pot := potential.getD 0
  if ¬ (0 ≤ pot ∧ pot < 5) then .error "Unsupported LP slot"
  else
    let r := ensureEntryLocked name draft now db
    let key := r.1
    let entry := r.2.1
    let created := r.2.2.1
    let db := r.2.2.2
    let step1 : Entry × Bool :=
      if entry.priceAt pot ≠ some price
      then (entry.setPriceAt pot (some price), true) else (entry, created)
    let entry := step1.1
    let changed := step1.2
    let step2 : Entry × Bool :=
      if entry.commentAt pot ≠ none
      then (entry.setCommentAt pot none, true) else (entry, changed)
    let entry := step2.1
    let changed := step2.2
    let db := (removePendingLocked [normName name] db).2
    let entry := if changed then { entry with updatedAt := now } else entry
    .ok (key, { db with known := aSet db.known key entry })

/-- `PriceDB.add_known`.  The bad-slot `ValueError` fires after the entry was
already ensured, so the post-exception state is returned alongside the
error. -/
def addKnown (name : String) (price : Option PyPrice) (potential : Option ℤ)
    (now draft : String) (db : DB) : Except String String × DB :=
  let r := ensureEntryLocked name draft now db
  let key := r.1
  let entry0 := r.2.1
  let created := r.2.2.1
  let db := r.2.2.2
  match price with
  | none =>
      if created then
        let entry := { entry0 with updatedAt := now, createdAt := now }
        (.ok key, { db with known := aSet db.known key entry })
      else (.ok key, db)
  | some pv =>
      let pot := potential.getD 0
      if ¬ (0 ≤ pot ∧ pot < 5) then (.error "Unsupported LP slot", db)
      else
        let vc := coercePriceText (some pv)
        let step1 : Entry × Bool :=
          if entry0.priceAt pot ≠ vc.1
          then (entry0.setPriceAt pot vc.1, true) else (entry0, created)
        let entry := step1.1
        let changed := step1.2
        let step2 : Entry × Bool :=
          if entry.commentAt pot ≠ vc.2
          then (entry.setCommentAt pot vc.2, true) else (entry, changed)
        let entry := step2.1
        let changed := step2.2
        if changed then
          let entry := { entry with updatedAt := now }
          let entry := if created then { entry with createdAt := now } else entry
          (.ok key, { db with known := aSet db.known key entry })
        else (.ok key, db)

/-- Replace the first occurrence of `k` in the display order with `nk`. -/
def replaceFirst : List String → String → String → List String
  | [], _, _ => []
  | x :: xs, k, nk => if x = k then nk :: xs else x :: replaceFirst xs k nk

def keyErrMsg : String := "Unknown price entry key"
def collideErrMsg : String := "Entry already exists"

/-- The rename phase of `PriceDB.edit_known`.  On a canonical-key collision
the `ValueError` propagates, but the entry's `name` field has already been
overwritten in place — the returned error state reflects that.  (The
source's `is not entry` identity guard is key inequality here: distinct
keys hold distinct record objects.) -/
def editName (key : String) (name? : Option String) (entry : Entry)
    (db : DB) : Except DB (String × Entry × DB × Bool) :=
  match name? with
  | none => .ok (key, entry, db, false)
  | some nm =>
      let newName := pyStrip nm
      let e1 : Entry × Bool :=
        if entry.name ≠ newName then ({ entry with name := newName }, true)
        else (entry, false)
      let entry := e1.1
      let changed := e1.2
      let newKey := normName newName
      if newKey ≠ "" ∧ newKey ≠ key then
        if aHas db.known newKey then
          .error { db with known := aSet db.known key entry }
        else
          let known := aDel (aSet db.known newKey entry) key
          let order := replaceFirst db.knownOrder key newKey
          .ok (newKey, entry, { db with known := known, knownOrder := order },
               true)
      else .ok (key, entry, db, changed)

/-- The notes phase of `PriceDB.edit_known`. -/
def applyNotes (notes? : Option String) (entry : Entry) (changed : Bool) :
    Entry × Bool :=
  match notes? with
  | none => (entry, changed)
  | some nt =>
      let n := normalizeComment (some nt)
      if entry.notes ≠ n then ({ entry with notes := n }, true)
      else (entry, changed)

/-- The per-slot phase of `PriceDB.edit_known`: slots outside 0..4 are
skipped, each raw value parses as numeric-or-comment. -/
def applyLps (lps : List (ℤ × Option PyPrice)) (entry : Entry)
    (changed : Bool) : Entry × Bool :=
  lps.foldl
    (fun (ec : Entry × Bool) pv =>
      let pot := pv.1
      if ¬ (0 ≤ pot ∧ pot < 5) then ec
      else
        let vc := coercePriceText pv.2
        let s1 : Entry × Bool :=
          if ec.1.priceAt pot ≠ vc.1
          then (ec.1.setPriceAt pot vc.1, true) else ec
        if s1.1.commentAt pot ≠ vc.2
        then (s1.1.setCommentAt pot vc.2, true) else s1)
    (entry, changed)

/-- `PriceDB.edit_known`.  Returns the key-or-error, the post-call in-memory
state, and whether a disk write happened. -/
def editKnown (key : String) (name? notes? : Option String)
    (lps : List (ℤ × Option PyPrice)) (now : String) (db : DB) :
    Except String String × DB × Bool :=
  match aGet db.known key with
  | none => (.error keyErrMsg, db, false)
  | some entry0 =>
      match editName key name? entry0 db with
      | .error db1 => (.error collideErrMsg, db1, false)
      | .ok (key1, entry1, db1, changed1) =>
          let n2 := applyNotes notes? entry1 changed1
          let l3 := applyLps lps n2.1 n2.2
          let entry := if l3.2 then { l3.1 with updatedAt := now } else l3.1
          (.ok key1, { db1 with known := aSet db1.known key1 entry }, l3.2)

/-- The external `rapidfuzz.fuzz` similarity oracle (`token_set_ratio` /
`partial_ratio`).  The library is outside this repository, so it enters the
embedding as a parameter; real scores lie in `[0, 100]`, and theorems state
any bound they need explicitly. -/
structure Fuzz where
  tokenSetScore : String → String → ℚ
  partScore : String → String → ℚ

/-- Degenerate oracle used to state concrete results (every score 0); the
results proved with it are forced by the containment fast path, which awards
100 regardless of the oracle. -/
def zeroFuzz : Fuzz := ⟨fun _ _ => 0, fun _ _ => 0⟩

/-- Python `s.split()` on a cleaned string (whitespace is only `' '` there). -/
def pyTokens (s : String) : List String :=
  (splitW s.data).map String.mk

/-- A fold that keeps the running maximum (`if s > sc: sc = s`). -/
def maxFold (f : String → ℚ) (l : List String) (init : ℚ) : ℚ :=
  l.foldl (fun a x => if a < f x then f x else a) init

/-- Per-line score of the "clean" strategy in `find_best`: fuzzy ratios,
containment award, token-coverage bonus. -/
def cleanLineScore (fz : Fuzz) (nameN : String) (nameTokens : List String)
    (ln : String) : ℚ :=
  let s := max (fz.tokenSetScore nameN ln) (fz.partScore nameN ln)
  let s := if nameN ≠ "" ∧ (pySubstr nameN ln || pySubstr ln nameN)
           then max s 100 else s
  if nameTokens ≠ [] then
    let lnTokens := (pyTokens ln).filter (fun t => 2 ≤ t.length)
    -- `cov = covered / max(1, len(name_tokens))`; the test `cov >= 0.6` and
    -- the award `int(95 + 5 * cov)` are written in exact integer arithmetic
    -- (`5*covered ≥ 3*n` and `95 + (5*covered)/n`), which is the same
    -- rational number the source computes.
    let covered := (nameTokens.filter (fun t => lnTokens.contains t)).length
    let n := max 1 nameTokens.length
    if 3 * n ≤ 5 * covered then max s ((95 + (5 * covered) / n : ℕ) : ℚ) else s
  else s

/-- Per-line score of the shape-fold strategy. -/
def shapeLineScore (fz : Fuzz) (nameShape : String) (ln : String) : ℚ :=
  let s := max (fz.tokenSetScore nameShape ln) (fz.partScore nameShape ln)
  if nameShape ≠ "" ∧ (pySubstr nameShape ln || pySubstr ln nameShape)
  then max s 100 else s

/-- Per-line score of the transliteration strategy. -/
def translitLineScore (fz : Fuzz) (nameTr : String) (ln : String) : ℚ :=
  let s := max (fz.tokenSetScore nameTr ln) (fz.partScore nameTr ln)
  if nameTr ≠ "" ∧ (pySubstr nameTr ln || pySubstr ln nameTr)
  then max s 100 else s

/-- Score of one entry against the candidate lines (the body of
`find_best`'s loop): maximum over the three strategies and all lines, plus
the same-potential bias of +2. -/
def scoreEntry (fz : Fuzz) (potential : Option ℤ)
    (normLines shapeLines translitLines : List String) (e : Entry) : ℚ :=
  let nameN := cleanForMatch e.name
  let nameTokens := (pyTokens nameN).filter (fun t => 2 ≤ t.length)
  let sc := maxFold (cleanLineScore fz nameN nameTokens) normLines 0
  let sc := maxFold (shapeLineScore fz (shapeFold e.name)) shapeLines sc
  let sc := maxFold
    (translitLineScore fz (cleanForMatch (translitRuToLat e.name)))
    translitLines sc
  match potential with
  | some p => if entryHasLp e p then sc + 2 else sc
  | none => sc

/-- One step of `find_best`'s loop over the known entries. -/
def findBestStep (fz : Fuzz) (potential : Option ℤ) (strict : Bool)
    (normLines shapeLines translitLines : List String)
    (acc : Option (String × Entry) × ℚ) (ke : String × Entry) :
    Option (String × Entry) × ℚ :=
  if cleanForMatch ke.2.name = "" then acc
  else if strict &&
      (match potential with
       | some p => !(entryHasLp ke.2 p)
       | none => false) then acc
  else
    let sc := scoreEntry fz potential normLines shapeLines translitLines ke.2
    if acc.2 < sc then (some ke, sc) else acc

/-- `PriceDB.find_best`. -/
def findBest (fz : Fuzz) (db : DB) (lines : List String) (threshold : ℚ)
    (potential : Option ℤ) (strict : Bool) :
    Option (String × Entry) × ℚ :=
  if lines.isEmpty then (none, 0)
  else
    let normLines :=
      (lines.filter (fun x => decide (x ≠ "" ∧ cleanForMatch x ≠ ""))).map
        cleanForMatch
    let shapeLines :=
      (lines.filter (fun x => decide (x ≠ "" ∧ shapeFold x ≠ ""))).map
        shapeFold
    let translitLines :=
      (lines.filter (fun x => x ≠ "")).map
        (fun x => cleanForMatch (translitRuToLat x))
    if normLines.isEmpty then (none, 0)
    else
      match db.known.foldl
          (findBestStep fz potential strict normLines shapeLines translitLines)
          (none, 0) with
      | (some b, sc) => if threshold ≤ sc then (some b, sc) else (none, 0)
      | (none, _) => (none, 0)

/-- `PriceDB.get_price`: resolve via `find_best` at threshold 80 and project
the display value of the requested slot. -/
def getPrice (fz : Fuzz) (db : DB) (name : String) (potential : Option ℤ) :
    DisplayVal × Option (String × Entry) :=
  let pot := potential.getD 0
  match (findBest fz db [name] 80 potential false).1 with
  | none => (none, none)
  | some (k, e) =>
      (lpDisplayValue e (if 0 ≤ pot ∧ pot < 5 then pot else 0), some (k, e))

/-- A legacy (pre-LP-schema) price record, as read by the migration script. -/
structure LegacyRec where
  name : Option String
  potential : Option ℤ
  price : Option PyPrice
  createdAt : Option String
  updatedAt : Option String
deriving DecidableEq, Repr

/-- Python `a or b` for optional strings (empty counts as falsy). -/
def strOr (a : Option String) (b : String) : String :=
  match a with
  | some s => if s = "" then b else s
  | none => b

/-- Lexicographic comparison of character lists by code point (Python's
string `<`). -/
def listLtChar : List Char → List Char → Bool
  | [], [] => false
  | [], _ :: _ => true
  | _ :: _, [] => false
  | a :: as, b :: bs =>
      if a.toNat < b.toNat then true
      else if b.toNat < a.toNat then false
      else listLtChar as bs

/-- Python string `<`. -/
def strLtP (a b : String) : Bool := listLtChar a.data b.data

/-- Python `min` on two strings (first argument wins ties). -/
def strMinP (a b : String) : String := if strLtP b a then b else a

/-- Python `max` on two strings (first argument wins ties). -/
def strMaxP (a b : String) : String := if strLtP a b then b else a

/-- `migrate_prices_lp._blank_entry`. -/
def blankEntry (name timestamp : String) : Entry :=
  { name := pyStrip name
    notes := none
    createdAt := timestamp
    updatedAt := timestamp
    prices := List.replicate 5 none
    comments := List.replicate 5 none }

/-- `migrate_prices_lp._coerce_price` (same behaviour as
`_coerce_price_text`). -/
def coercePrice (v : Option PyPrice) : Option ℚ × Option String :=
  coercePriceText v

/-- Folding one legacy record into the grouped map (the body of `migrate`'s
loop over `known`). -/
def migrateStep (now : String) (grouped : List (String × Entry))
    (r : LegacyRec) : List (String × Entry) :=
  let rawName := pyStrip (r.name.getD "")
  let canonical :=
    if normName rawName ≠ "" then normName rawName
    else "unnamed-" ++ toString grouped.length
  let timestamp := strOr r.updatedAt (strOr r.createdAt now)
  let entry : Entry :=
    match aGet grouped canonical with
    | none => blankEntry (if rawName ≠ "" then rawName else canonical) timestamp
    | some e =>
        let e := if rawName ≠ "" then { e with name := rawName } else e
        { e with createdAt := strMinP (strOr (some e.createdAt) timestamp) timestamp }
  let entry := { entry with
    updatedAt := strMaxP (strOr (some entry.updatedAt) timestamp) timestamp }
  let pot : ℤ := max 0 (min 4 (r.potential.getD 0))
  let vc := coercePrice r.price
  let entry :=
    match vc.1, vc.2 with
    | some q, _ => (entry.setPriceAt pot (some q)).setCommentAt pot none
    | none, some c => (entry.setPriceAt pot none).setCommentAt pot (some c)
    | none, none => entry
  aSet grouped canonical entry

/-- The grouping pass of `migrate_prices_lp.migrate`: legacy records folded
into the new per-name LP-slot schema, in input order.  (`now` stands for
`datetime.now()`, used only when a record carries no timestamps.) -/
def migrateKnown (now : String) (records : List LegacyRec) :
    List (String × Entry) :=
  records.foldl (migrateStep now) []

/-- `template_manager._best_match_scaled`, over the list of per-template
correlation maxima reported by OpenCV (external input): the running maximum
of the scores, starting from 0. -/
def bestMatchScaled (scores : List ℚ) : ℚ :=
  scores.foldl (fun b s => if b < s then s else b) 0

/-- The scan of `match_item_by_templates` over the cached items, each given
by its name and its list of per-template scores. -/
def bestItemScan (items : List (String × List ℚ)) : Option String × ℚ :=
  items.foldl
    (fun (acc : Option String × ℚ) it =>
      let s := bestMatchScaled it.2
      if acc.2 < s then (some it.1, s) else acc)
    (none, 0)

/-- `template_manager.match_item_by_templates`: best item over all scaled
name templates, accepted at the threshold or at the relaxed floor
`max(0.72, threshold - 0.07)`. -/
def matchItemByTemplates (items : List (String × List ℚ)) (threshold : ℚ) :
    Option (String × ℚ) :=
  let best := bestItemScan items
  match best.1 with
  | none => none
  | some nm =>
      if nm = "" then none
      else
        let relaxed := max (72 / 100 : ℚ) (threshold - 7 / 100)
        if threshold ≤ best.2 then some (nm, best.2)
        else if relaxed ≤ best.2 then some (nm, best.2)
        else none

/-- An axis-aligned rectangle `(x1, y1, x2, y2)`. -/
abbrev Rect := ℤ × ℤ × ℤ × ℤ

/-- `template_manager._rect_iou`. -/
def rectIoU (a b : Rect) : ℚ :=
  let ix1 := max a.1 b.1
  let iy1 := max a.2.1 b.2.1
  let ix2 := min a.2.2.1 b.2.2.1
  let iy2 := min a.2.2.2 b.2.2.2
  if ix2 ≤ ix1 ∨ iy2 ≤ iy1 then 0
  else
    let inter : ℚ := ((ix2 - ix1) * (iy2 - iy1) : ℤ)
    let areaA : ℚ := ((max 0 (a.2.2.1 - a.1)) * (max 0 (a.2.2.2 - a.2.1)) : ℤ)
    let areaB : ℚ := ((max 0 (b.2.2.1 - b.1)) * (max 0 (b.2.2.2 - b.2.1)) : ℤ)
    let denom := areaA + areaB - inter
    if denom ≤ 0 then 0 else inter / denom

/-- A correlation peak extracted by the zero-out loop of
`_collect_inventory_matches` (external input: score, x, y, template size). -/
structure Peak where
  score : ℚ
  x : ℤ
  y : ℤ
  w : ℤ
  h : ℤ
deriving DecidableEq, Repr

def Peak.rect (p : Peak) : Rect := (p.x, p.y, p.x + p.w, p.y + p.h)

/-- Stable descending insertion by key (Python `list.sort(key=..,
reverse=True)`). -/
def insertDesc {α : Type} (key : α → ℚ) (p : α) : List α → List α
  | [] => [p]
  | q :: qs => if key q < key p then p :: q :: qs else q :: insertDesc key p qs

def sortDesc {α : Type} (key : α → ℚ) (l : List α) : List α :=
  l.foldl (fun acc p => insertDesc key p acc) []

/-- The per-item greedy pass of `_collect_inventory_matches`: walk the
score-sorted peaks, keep a peak unless it overlaps an already-kept one
beyond `suppressIou`, and stop right after the `maxPerItem`-th keep. -/
def greedyTake (maxPerItem : ℕ) (suppressIou : ℚ) :
    List Peak → List Peak → List Peak
  | [], acc => acc.reverse
  | p :: ps, acc =>
      if acc.any (fun a => suppressIou < rectIoU p.rect a.rect) then
        greedyTake maxPerItem suppressIou ps acc
      else if maxPerItem ≤ acc.length + 1 then (p :: acc).reverse
      else greedyTake maxPerItem suppressIou ps (p :: acc)

/-- `template_manager._collect_inventory_matches`, from the raw peak list
(the correlation-surface loop is external). -/
def collectInventoryMatches (raw : List Peak) (maxPerItem : ℕ)
    (suppressIou : ℚ := 2 / 5) : List Peak :=
  greedyTake maxPerItem suppressIou (sortDesc Peak.score raw) []

/-- One reported inventory match. -/
structure InvMatch where
  item : String
  score : ℚ
  rect : Rect
deriving DecidableEq, Repr

/-- The cross-item suppression pass of `match_inventory_regions`: keep a
match unless it overlaps an already-kept one beyond `suppressIou`. -/
def greedyFilter (suppressIou : ℚ) :
    List InvMatch → List InvMatch → List InvMatch
  | [], acc => acc.reverse
  | m :: ms, acc =>
      if acc.any (fun o => suppressIou < rectIoU m.rect o.rect) then
        greedyFilter suppressIou ms acc
      else greedyFilter suppressIou ms (m :: acc)

/-- `template_manager.match_inventory_regions`, from the per-item raw peak
lists: collect per item (inner suppression 0.4), sort all candidates by
descending score, then the cross-item IoU suppression pass. -/
def matchInventoryRegions (itemRaws : List (String × List Peak))
    (maxPerItem : ℕ) (suppressIou : ℚ) : List InvMatch :=
  let cands := itemRaws.flatMap (fun it =>
    (collectInventoryMatches it.2 maxPerItem).map (fun p =>
      { item := it.1, score := p.score, rect := p.rect }))
  greedyFilter suppressIou (sortDesc InvMatch.score cands) []

/-- Number of pending records with the given canonical name. -/
def pendCount (canonical : String) (l : List PendingRec) : ℕ :=
  l.countP (fun pr => normName pr.name == canonical)

/-- A sequence of `ensure_pending` calls for one name (potential hint and
timestamp per call). -/
def ensurePendingSeq (name : String) (calls : List (Option ℤ × String))
    (db : DB) : DB :=
  calls.foldl (fun d c => (ensurePending name c.1 c.2 d).2) db

/-- A blank entry used to build concrete test states. -/
def blankTestEntry (nm : String) : Entry :=
  { name := nm
    notes := none
    createdAt := "t0"
    updatedAt := "t0"
    prices := List.replicate 5 none
    comments := List.replicate 5 none }

/-- Store with two entries whose names overlap: the short name is a
substring of the long one and iterates first. -/
def shadowDb : DB :=
  ⟨[("лук", blankTestEntry "лук"), ("лук тени", blankTestEntry "Лук тени")],
   ["лук", "лук тени"], []⟩

/-- Store with two unrelated entries keyed `a` and `b`. -/
def abDb : DB :=
  ⟨[("a", blankTestEntry "a"), ("b", blankTestEntry "b")], ["a", "b"], []⟩

/-- Store with one pending record and no known entries. -/
def pendingDb : DB := ⟨[], [], [⟨"лук", none, "t0"⟩]⟩

/-- First legacy record of the migration scenario: potential `null`, text
price. -/
def legacyRec1 : LegacyRec :=
  ⟨some "Лук тени", none, some (.txt "коммент"), none,
   some "2024-01-01T00:00:00"⟩

/-- Second legacy record of the migration scenario: potential 2, numeric
price. -/
def legacyRec2 : LegacyRec :=
  ⟨some "Лук тени", some 2, some (.num 12345), none,
   some "2024-01-02T00:00:00"⟩

/-- The entry the migration scenario must produce. -/
def migratedEntry : Entry :=
  { name := "Лук тени"
    notes := none
    createdAt := "2024-01-01T00:00:00"
    updatedAt := "2024-01-02T00:00:00"
    prices := [none, none, some 12345, none, none]
    comments := [some "коммент", none, none, none, none] }

/-- The entry `set_price` produces for a freshly created name: the numeric
price sits in the requested slot, every comment is empty. -/
def roundEntry (name now : String) (p : ℤ) (v : ℚ) : Entry :=
  { name := pyStrip name
    notes := none
    createdAt := now
    updatedAt := now
    prices := (List.replicate 5 none).set p.toNat (some v)
    comments := List.replicate 5 none }

/-! ## Basic facts about the normalisation helpers -/

theorem pySubstr_self (s : String) : pySubstr s s = true := by
  unfold pySubstr listContains
  by_cases h : s.data.length = 0
  · simp [h]
  · rw [if_neg h]
    rw [List.any_eq_true]
    refine ⟨0, ?_, ?_⟩
    · exact List.mem_range.mpr (Nat.succ_pos _)
    · simp

theorem dropWhile_dropWhile (p : Char → Bool) (l : List Char) :
    (l.dropWhile p).dropWhile p = l.dropWhile p := by
  induction l with
  | nil => rfl
  | cons c t ih =>
      by_cases h : p c
      · simp [List.dropWhile_cons, h, ih]
      · simp [List.dropWhile_cons, h]

theorem head?_dropWhile (p : Char → Bool) (l : List Char) :
    ∀ c, (l.dropWhile p).head? = some c → p c = false := by
  induction l with
  | nil => intro c h; simp at h
  | cons d t ih =>
      intro c h
      by_cases hd : p d
      · exact ih c (by simpa [List.dropWhile_cons, hd] using h)
      · simp [List.dropWhile_cons, hd] at h
        subst h
        simpa using hd

theorem getLast?_dropWhile (p : Char → Bool) (l : List Char)
    (h : l.dropWhile p ≠ []) : (l.dropWhile p).getLast? = l.getLast? := by
  induction l with
  | nil => simp at h
  | cons c t ih =>
      by_cases hc : p c
      · have ht : t.dropWhile p ≠ [] := by
          simpa [List.dropWhile_cons, hc] using h
        rw [List.dropWhile_cons, if_pos hc, ih ht]
        cases t with
        | nil => simp at ht
        | cons d u => rw [List.getLast?_cons_cons]
      · rw [List.dropWhile_cons, if_neg hc]

theorem dropWhile_eq_self_of_head (p : Char → Bool) (l : List Char)
    (h : ∀ c, l.head? = some c → p c = false) : l.dropWhile p = l := by
  cases l with
  | nil => rfl
  | cons c t =>
      have := h c (by simp)
      simp [List.dropWhile_cons, this]

theorem stripL_idem (l : List Char) : stripL (stripL l) = stripL l := by
  unfold stripL
  set w := l.dropWhile isPyWS with hw
  set z := w.reverse.dropWhile isPyWS with hz
  have h1 : z.reverse.dropWhile isPyWS = z.reverse := by
    apply dropWhile_eq_self_of_head
    intro c hc
    rw [List.head?_reverse] at hc
    by_cases hzn : z = []
    · rw [hzn] at hc; simp at hc
    · have h2 : z.getLast? = w.reverse.getLast? := getLast?_dropWhile _ _ (hz ▸ hzn)
      rw [h2, List.getLast?_reverse] at hc
      exact head?_dropWhile isPyWS l c (hw ▸ hc)
  rw [h1, List.reverse_reverse, hz, dropWhile_dropWhile]

theorem pyStrip_idem (s : String) : pyStrip (pyStrip s) = pyStrip s := by
  unfold pyStrip
  rw [show (String.mk (stripL s.data)).data = stripL s.data from rfl, stripL_idem]

theorem normName_pyStrip (s : String) : normName (pyStrip s) = normName s := by
  unfold normName
  rw [pyStrip_idem]

theorem normName_empty : normName "" = "" := rfl

theorem splitWAux_append_space (l : List Char) :
    ∀ cur, splitWAux (l ++ [' ']) cur = splitWAux l cur := by
  induction l with
  | nil =>
      intro cur
      by_cases h : cur = []
      · simp [splitWAux, h]
      · simp [splitWAux, h]
  | cons c cs ih =>
      intro cur
      by_cases hc : c = ' '
      · by_cases h : cur = [] <;>
          simp [splitWAux, hc, h, ih]
      · simp [splitWAux, hc, ih]

theorem splitW_cons_space (l : List Char) : splitW (' ' :: l) = splitW l := by
  simp [splitW, splitWAux]

theorem splitW_append_space (l : List Char) :
    splitW (l ++ [' ']) = splitW l :=
  splitWAux_append_space l []

theorem splitW_space_front (pre l : List Char)
    (h : ∀ c ∈ pre, c = ' ') : splitW (pre ++ l) = splitW l := by
  induction pre with
  | nil => rfl
  | cons c cs ih =>
      have hc : c = ' ' := h c (by simp)
      rw [List.cons_append, hc, splitW_cons_space,
        ih (fun d hd => h d (by simp [hd]))]

theorem splitW_space_suffix (suf : List Char)
    (h : ∀ c ∈ suf, c = ' ') : ∀ l, splitW (l ++ suf) = splitW l := by
  induction suf with
  | nil => intro l; simp
  | cons c cs ih =>
      intro l
      have hc : c = ' ' := h c (by simp)
      have : l ++ c :: cs = (l ++ [c]) ++ cs := by simp
      rw [this, ih (fun d hd => h d (by simp [hd])) (l ++ [c]), hc,
        splitW_append_space]

theorem cleanCharFn_ws (c : Char) (h : isPyWS c = true) :
    cleanCharFn c = ' ' := by
  simp [isPyWS] at h
  rcases h with ((((h | h) | h) | h) | h) | h <;> subst h <;> decide

theorem cleanForMatch_pyStrip (s : String) :
    cleanForMatch (pyStrip s) = cleanForMatch s := by
  show String.mk (cleanList (stripL s.data)) = String.mk (cleanList s.data)
  unfold cleanList
  refine congrArg (fun t => String.mk (joinW t)) ?_
  have hl : s.data = s.data.takeWhile isPyWS ++ s.data.dropWhile isPyWS :=
    (List.takeWhile_append_dropWhile _ _).symm
  have hwdec : s.data.dropWhile isPyWS =
      stripL s.data ++
        ((s.data.dropWhile isPyWS).reverse.takeWhile isPyWS).reverse := by
    unfold stripL
    conv_lhs => rw [← List.reverse_reverse (s.data.dropWhile isPyWS),
      ← List.takeWhile_append_dropWhile isPyWS (s.data.dropWhile isPyWS).reverse,
      List.reverse_append]
  have hpre : ∀ c ∈ (s.data.takeWhile isPyWS).map cleanCharFn, c = ' ' := by
    intro c hc
    obtain ⟨d, hd, rfl⟩ := List.mem_map.mp hc
    exact cleanCharFn_ws d (List.mem_takeWhile_imp hd)
  have hsuf : ∀ c ∈
      (((s.data.dropWhile isPyWS).reverse.takeWhile isPyWS).reverse).map
        cleanCharFn, c = ' ' := by
    intro c hc
    obtain ⟨d, hd, rfl⟩ := List.mem_map.mp hc
    exact cleanCharFn_ws d (List.mem_takeWhile_imp (List.mem_reverse.mp hd))
  calc splitW ((stripL s.data).map cleanCharFn)
      = splitW ((stripL s.data).map cleanCharFn ++
          (((s.data.dropWhile isPyWS).reverse.takeWhile isPyWS).reverse).map
            cleanCharFn) :=
        (splitW_space_suffix _ hsuf _).symm
    _ = splitW ((s.data.dropWhile isPyWS).map cleanCharFn) := by
        rw [← List.map_append, ← hwdec]
    _ = splitW ((s.data.takeWhile isPyWS).map cleanCharFn ++
          (s.data.dropWhile isPyWS).map cleanCharFn) :=
        (splitW_space_front _ _ hpre).symm
    _ = splitW (s.data.map cleanCharFn) := by rw [← List.map_append, ← hl]

/-! ## Score bounds for `find_best` -/

theorem le_maxFold_init (f : String → ℚ) (l : List String) :
    ∀ init, init ≤ maxFold f l init := by
  induction l with
  | nil => intro init; exact le_refl _
  | cons x t ih =>
      intro init
      show init ≤ maxFold f t (if init < f x then f x else init)
      refine le_trans ?_ (ih _)
      split
      · exact le_of_lt (by assumption)
      · exact le_refl _

theorem le_maxFold_mem (f : String → ℚ) {l : List String} {x : String}
    (hx : x ∈ l) : ∀ init, f x ≤ maxFold f l init := by
  induction l with
  | nil => cases hx
  | cons y t ih =>
      intro init
      rcases List.mem_cons.mp hx with h | h
      · subst h
        show f x ≤ maxFold f t (if init < f x then f x else init)
        refine le_trans ?_ (le_maxFold_init f t _)
        split
        · exact le_refl _
        · exact le_of_not_lt (by assumption)
      · exact ih h _

theorem cleanLineScore_ge_100 (fz : Fuzz) (nameN : String)
    (nameTokens : List String) (ln : String) (hn : nameN ≠ "")
    (hsub : (pySubstr nameN ln || pySubstr ln nameN) = true) :
    100 ≤ cleanLineScore fz nameN nameTokens ln := by
  simp only [cleanLineScore, hn, hsub, ne_eq, not_false_iff, true_and, if_true]
  split
  · split
    · exact le_trans (le_max_right _ 100) (le_max_left _ _)
    · exact le_max_right _ 100
  · exact le_max_right _ 100

theorem scoreEntry_ge_100 (fz : Fuzz) (pot : Option ℤ)
    (nl sl tl : List String) (e : Entry) (ln : String) (hln : ln ∈ nl)
    (hn : cleanForMatch e.name ≠ "")
    (hsub : (pySubstr (cleanForMatch e.name) ln ||
      pySubstr ln (cleanForMatch e.name)) = true) :
    100 ≤ scoreEntry fz pot nl sl tl e := by
  have h1 : 100 ≤ maxFold
      (cleanLineScore fz (cleanForMatch e.name)
        ((pyTokens (cleanForMatch e.name)).filter (fun t => 2 ≤ t.length)))
      nl 0 :=
    le_trans (cleanLineScore_ge_100 fz _ _ ln hn hsub) (le_maxFold_mem _ hln 0)
  have h2 := le_maxFold_init (shapeLineScore fz (shapeFold e.name)) sl
  have h3 := le_maxFold_init
    (translitLineScore fz (cleanForMatch (translitRuToLat e.name))) tl
  cases pot with
  | none =>
      simp only [scoreEntry]
      exact le_trans h1 (le_trans (h2 _) (h3 _))
  | some p =>
      simp only [scoreEntry]
      have hbase : 100 ≤ maxFold
          (translitLineScore fz (cleanForMatch (translitRuToLat e.name))) tl
          (maxFold (shapeLineScore fz (shapeFold e.name)) sl
            (maxFold (cleanLineScore fz (cleanForMatch e.name)
              ((pyTokens (cleanForMatch e.name)).filter
                (fun t => 2 ≤ t.length))) nl 0)) :=
        le_trans h1 (le_trans (h2 _) (h3 _))
      by_cases hlp : entryHasLp e p = true
      · rw [if_pos hlp]; linarith
      · rw [if_neg hlp]; exact hbase

section FindBestFold

variable (fz : Fuzz) (pot : Option ℤ) (strict : Bool)
variable (nl sl tl : List String)

theorem findBestStep_score_mono (acc : Option (String × Entry) × ℚ)
    (ke : String × Entry) :
    acc.2 ≤ (findBestStep fz pot strict nl sl tl acc ke).2 := by
  by_cases h1 : cleanForMatch ke.2.name = ""
  · simp only [findBestStep, if_pos h1]
    exact le_refl _
  · by_cases h2 : (strict &&
        match pot with
        | some p => !entryHasLp ke.2 p
        | none => false) = true
    · simp only [findBestStep, if_neg h1, h2, if_true]
      exact le_refl _
    · simp only [findBestStep, if_neg h1, h2, if_false]
      by_cases h3 : acc.2 < scoreEntry fz pot nl sl tl ke.2
      · rw [if_pos h3]; exact le_of_lt h3
      · rw [if_neg h3]; simp

theorem findBestFold_score_mono (l : List (String × Entry)) :
    ∀ acc, acc.2 ≤ (l.foldl (findBestStep fz pot strict nl sl tl) acc).2 := by
  induction l with
  | nil => intro acc; exact le_refl _
  | cons ke t ih =>
      intro acc
      exact le_trans (findBestStep_score_mono fz pot strict nl sl tl acc ke)
        (ih _)

theorem findBestFold_score_ge {l : List (String × Entry)}
    {ke : String × Entry} (hke : ke ∈ l)
    (hname : cleanForMatch ke.2.name ≠ "") (hstrict : strict = false) :
    ∀ acc, scoreEntry fz pot nl sl tl ke.2 ≤
      (l.foldl (findBestStep fz pot strict nl sl tl) acc).2 := by
  induction l with
  | nil => cases hke
  | cons y t ih =>
      intro acc
      rcases List.mem_cons.mp hke with h | h
      · subst h
        refine le_trans ?_ (findBestFold_score_mono fz pot strict nl sl tl t _)
        unfold findBestStep
        subst hstrict
        rw [if_neg hname]
        simp only [Bool.false_and, Bool.false_eq_true, if_false]
        split
        · exact le_refl _
        · exact le_of_not_lt (by assumption)
      · exact ih h _

theorem findBestStep_none (acc : Option (String × Entry) × ℚ)
    (ke : String × Entry) (h : acc.1 = none → acc.2 = 0) :
    (findBestStep fz pot strict nl sl tl acc ke).1 = none →
      (findBestStep fz pot strict nl sl tl acc ke).2 = 0 := by
  by_cases h1 : cleanForMatch ke.2.name = ""
  · simp only [findBestStep, if_pos h1]; exact h
  · by_cases h2 : (strict &&
        match pot with
        | some p => !entryHasLp ke.2 p
        | none => false) = true
    · simp only [findBestStep, if_neg h1, h2, if_true]; exact h
    · simp only [findBestStep, if_neg h1, h2, if_false]
      by_cases h3 : acc.2 < scoreEntry fz pot nl sl tl ke.2
      · rw [if_pos h3]; intro hn; simp at hn
      · rw [if_neg h3]; exact h

theorem findBestFold_none (l : List (String × Entry)) :
    ∀ acc, (acc.1 = none → acc.2 = 0) →
      ((l.foldl (findBestStep fz pot strict nl sl tl) acc).1 = none →
        (l.foldl (findBestStep fz pot strict nl sl tl) acc).2 = 0) := by
  induction l with
  | nil => intro acc h; exact h
  | cons ke t ih =>
      intro acc h
      exact ih _ (findBestStep_none fz pot strict nl sl tl acc ke h)

end FindBestFold

/-! ## Claims -/

/-- C10: `find_best` returns `(none, 0)` whenever the candidate line list is
empty or every line cleans to the empty string, regardless of the threshold,
potential, strictness and store contents. -/
theorem findBest_no_usable_lines (fz : Fuzz) (db : DB) (lines : List String)
    (threshold : ℚ) (pot : Option ℤ) (strict : Bool)
    (h : lines = [] ∨ ∀ l ∈ lines, cleanForMatch l = "") :
    findBest fz db lines threshold pot strict = (none, 0) := by
  rcases h with h | h
  · subst h; rfl
  · unfold findBest
    by_cases he : lines.isEmpty
    · rw [if_pos he]
    · rw [if_neg he]
      have hf : lines.filter
          (fun x => decide (x ≠ "" ∧ cleanForMatch x ≠ "")) = [] := by
        rw [List.filter_eq_nil_iff]
        intro a ha
        simp [h a ha]
      simp only [hf, List.map_nil, List.isEmpty_nil, if_true]

/-- Witness for C10 at a concrete line that cleans to nothing. -/
theorem findBest_no_usable_lines_case :
    findBest zeroFuzz DB.empty ["???"] 80 none false = (none, 0) :=
  findBest_no_usable_lines zeroFuzz DB.empty ["???"] 80 none false
    (Or.inr (by decide))

/-- C9: `edit_known` with an absent key fails with the `KeyError` and leaves
the state untouched, with no disk write. -/
theorem editKnown_missing_key (key : String) (name? notes? : Option String)
    (lps : List (ℤ × Option PyPrice)) (now : String) (db : DB)
    (h : aGet db.known key = none) :
    editKnown key name? notes? lps now db = (.error keyErrMsg, db, false) := by
  unfold editKnown
  rw [h]

/-- Witness for C9 at a concrete absent key. -/
theorem editKnown_missing_key_case :
    editKnown "zzz" (some "x") none [] "t1" abDb =
      (.error keyErrMsg, abDb, false) :=
  editKnown_missing_key "zzz" (some "x") none [] "t1" abDb (by decide)

/-- C8: migrating the two-record legacy store of the scenario produces one
entry keyed `лук тени` with `comment_lp0 = "коммент"`, `price_lp0 = None`,
`price_lp2 = 12345.0`, `comment_lp2 = None`. -/
theorem migrate_scenario :
    migrateKnown "2024-06-01T00:00:00" [legacyRec1, legacyRec2] =
      [("лук тени", migratedEntry)] := by decide

/-! ## Item-template matching (C6) -/

/-- Invariant of the `bestItemScan` fold: a `none` best has score 0, scores
stay non-negative and only grow, a `some` best has positive score and names
one of the scanned items. -/
theorem bestItemScan_fold_inv (l : List (String × List ℚ)) :
    ∀ acc : Option String × ℚ,
      (acc.1 = none → acc.2 = 0) → 0 ≤ acc.2 →
      (∀ nm, acc.1 = some nm → 0 < acc.2) →
      (let r := l.foldl
        (fun (acc : Option String × ℚ) it =>
          let s := bestMatchScaled it.2
          if acc.2 < s then (some it.1, s) else acc) acc
      (r.1 = none → r.2 = 0) ∧ 0 ≤ r.2 ∧
        (∀ nm, r.1 = some nm → 0 < r.2) ∧
        (∀ nm, r.1 = some nm → acc.1 = some nm ∨ ∃ s, (nm, s) ∈ l)) := by
  induction l with
  | nil =>
      intro acc h0 h1 h2
      exact ⟨h0, h1, h2, fun nm hnm => Or.inl hnm⟩
  | cons it t ih =>
      intro acc h0 h1 h2
      by_cases hlt : acc.2 < bestMatchScaled it.2
      · simp only [List.foldl_cons, if_pos hlt]
        have := ih (some it.1, bestMatchScaled it.2)
          (by intro h; simp at h)
          (le_trans h1 (le_of_lt hlt))
          (by intro nm _; exact lt_of_le_of_lt h1 hlt)
        refine ⟨this.1, this.2.1, this.2.2.1, ?_⟩
        intro nm hnm
        rcases this.2.2.2 nm hnm with h | ⟨s, hs⟩
        · have : nm = it.1 := by simpa using h.symm
          exact Or.inr ⟨it.2, by simp [this]⟩
        · exact Or.inr ⟨s, by simp [hs]⟩
      · simp only [List.foldl_cons, if_neg hlt]
        have := ih acc h0 h1 h2
        refine ⟨this.1, this.2.1, this.2.2.1, ?_⟩
        intro nm hnm
        rcases this.2.2.2 nm hnm with h | ⟨s, hs⟩
        · exact Or.inl h
        · exact Or.inr ⟨s, by simp [hs]⟩

/-- C6 (amended): `match_item_by_templates` returns a match exactly when the
best template score is positive and at least `min(threshold, max(0.72,
threshold - 0.07))`; with `threshold ≥ 0.72` that bound is the relaxed floor
of the original claim, but a threshold below 0.72 accepts scores that are
below the relaxed floor. -/
theorem matchItem_accept_iff (items : List (String × List ℚ)) (t : ℚ)
    (hnames : ∀ it ∈ items, it.1 ≠ "") :
    (matchItemByTemplates items t).isSome = true ↔
      (0 < (bestItemScan items).2 ∧
        min t (max (72 / 100) (t - 7 / 100)) ≤ (bestItemScan items).2) := by
  have hinv := bestItemScan_fold_inv items (none, 0)
    (fun _ => rfl) (le_refl 0) (by intro nm h; cases h)
  unfold matchItemByTemplates
  unfold bestItemScan at hinv ⊢
  cases hr : (items.foldl
      (fun (acc : Option String × ℚ) it =>
        let s := bestMatchScaled it.2
        if acc.2 < s then (some it.1, s) else acc) (none, 0)) with
  | mk b sc =>
      rw [hr] at hinv
      cases b with
      | none =>
          have hsc : sc = 0 := hinv.1 rfl
          subst hsc
          simp
      | some nm =>
          have hpos : 0 < sc := hinv.2.2.1 nm rfl
          have hmem : ∃ s, (nm, s) ∈ items := by
            rcases hinv.2.2.2 nm rfl with h | h
            · cases h
            · exact h
          have hne : nm ≠ "" := by
            rcases hmem with ⟨s, hs⟩
            exact hnames (nm, s) hs
          simp only [hne, if_neg, if_false]
          by_cases h1 : t ≤ sc
          · simp only [if_pos h1, Option.isSome_some]
            constructor
            · intro _
              exact ⟨hpos, le_trans (min_le_left _ _) h1⟩
            · intro _; trivial
          · rw [if_neg h1]
            by_cases h2 : max (72 / 100) (t - 7 / 100) ≤ sc
            · simp only [if_pos h2, Option.isSome_some]
              constructor
              · intro _
                exact ⟨hpos, le_trans (min_le_right _ _) h2⟩
              · intro _; trivial
            · simp only [if_neg h2, Option.isSome_none]
              constructor
              · intro h; cases h
              · intro ⟨_, hmin⟩
                rcases (min_le_iff.mp hmin) with h | h
                · exact absurd h h1
                · exact absurd h h2

/-- Counterexample for C6 as stated: at threshold 0.5 a best score of 0.6 is
accepted although it lies strictly below the claimed relaxed floor
`max(0.72, 0.5 - 0.07) = 0.72`. -/
theorem matchItem_low_threshold_cex :
    matchItemByTemplates [("a", [3 / 5])] (1 / 2) = some ("a", 3 / 5) ∧
      (3 / 5 : ℚ) < max (72 / 100) (1 / 2 - 7 / 100) := by
  constructor
  · unfold matchItemByTemplates bestItemScan bestMatchScaled
    norm_num
    intro h
    simp at h
  · norm_num

/-- Witness for C6 at a concrete item list and the default threshold. -/
theorem matchItem_accept_iff_case :
    (matchItemByTemplates [("a", [9 / 10])] (85 / 100)).isSome = true ↔
      (0 < (bestItemScan [("a", [9 / 10])]).2 ∧
        min (85 / 100) (max (72 / 100) (85 / 100 - 7 / 100)) ≤
          (bestItemScan [("a", [9 / 10])]).2) :=
  matchItem_accept_iff [("a", [9 / 10])] (85 / 100) (by decide)

/-! ## Inventory scan: sorting and cross-item suppression (C7) -/

theorem mem_insertDesc {α : Type} (key : α → ℚ) (p x : α) (l : List α) :
    x ∈ insertDesc key p l ↔ x = p ∨ x ∈ l := by
  induction l with
  | nil => simp [insertDesc]
  | cons q qs ih =>
      by_cases h : key q < key p
      · simp [insertDesc, h]
      · simp only [insertDesc, if_neg h, List.mem_cons, ih]
        tauto

theorem pairwise_insertDesc {α : Type} (key : α → ℚ) (p : α) {l : List α}
    (h : List.Pairwise (fun a b => key b ≤ key a) l) :
    List.Pairwise (fun a b => key b ≤ key a) (insertDesc key p l) := by
  induction l with
  | nil => simp [insertDesc]
  | cons q qs ih =>
      rcases List.pairwise_cons.mp h with ⟨h1, h2⟩
      by_cases hlt : key q < key p
      · rw [insertDesc, if_pos hlt]
        refine List.pairwise_cons.mpr ⟨?_, h⟩
        intro x hx
        rcases List.mem_cons.mp hx with rfl | hx
        · exact le_of_lt hlt
        · exact le_trans (h1 x hx) (le_of_lt hlt)
      · rw [insertDesc, if_neg hlt]
        refine List.pairwise_cons.mpr ⟨?_, ih h2⟩
        intro x hx
        rcases (mem_insertDesc key p x qs).mp hx with rfl | hx
        · exact le_of_not_lt hlt
        · exact h1 x hx

theorem sortDesc_fold_pairwise {α : Type} (key : α → ℚ) (l : List α) :
    ∀ acc, List.Pairwise (fun a b => key b ≤ key a) acc →
      List.Pairwise (fun a b => key b ≤ key a)
        (l.foldl (fun acc p => insertDesc key p acc) acc) := by
  induction l with
  | nil => intro acc h; exact h
  | cons p t ih =>
      intro acc h
      exact ih _ (pairwise_insertDesc key p h)

theorem sortDesc_pairwise {α : Type} (key : α → ℚ) (l : List α) :
    List.Pairwise (fun a b => key b ≤ key a) (sortDesc key l) :=
  sortDesc_fold_pairwise key l [] List.Pairwise.nil

theorem rectIoU_comm (a b : Rect) : rectIoU a b = rectIoU b a := by
  rcases a with ⟨a1, a2, a3, a4⟩
  rcases b with ⟨b1, b2, b3, b4⟩
  simp only [rectIoU]
  rw [max_comm b1 a1, max_comm b2 a2, min_comm b3 a3, min_comm b4 a4,
    add_comm ((((max 0 (b3 - b1)) * (max 0 (b4 - b2)) : ℤ) : ℚ))
      (((max 0 (a3 - a1)) * (max 0 (a4 - a2)) : ℤ) : ℚ)]

theorem greedyFilter_split (s : ℚ) (l : List InvMatch) :
    ∀ acc, ∃ r, greedyFilter s l acc = acc.reverse ++ r ∧ r.Sublist l := by
  induction l with
  | nil =>
      intro acc
      exact ⟨[], by simp [greedyFilter], List.Sublist.refl []⟩
  | cons m ms ih =>
      intro acc
      by_cases hg : acc.any (fun o => s < rectIoU m.rect o.rect) = true
      · obtain ⟨r, hr, hs⟩ := ih acc
        exact ⟨r, by rw [greedyFilter, if_pos hg, hr], hs.cons m⟩
      · obtain ⟨r, hr, hs⟩ := ih (m :: acc)
        refine ⟨m :: r, ?_, hs.cons₂ m⟩
        rw [greedyFilter, if_neg hg, hr, List.reverse_cons, List.append_assoc]
        rfl

theorem greedyFilter_pairwise_iou (s : ℚ) (l : List InvMatch) :
    ∀ acc,
      List.Pairwise
        (fun a b => rectIoU a.rect b.rect ≤ s ∧ rectIoU b.rect a.rect ≤ s)
        acc.reverse →
      List.Pairwise
        (fun a b => rectIoU a.rect b.rect ≤ s ∧ rectIoU b.rect a.rect ≤ s)
        (greedyFilter s l acc) := by
  induction l with
  | nil => intro acc h; exact h
  | cons m ms ih =>
      intro acc h
      by_cases hg : acc.any (fun o => s < rectIoU m.rect o.rect) = true
      · rw [greedyFilter, if_pos hg]
        exact ih acc h
      · rw [greedyFilter, if_neg hg]
        refine ih (m :: acc) ?_
        rw [List.reverse_cons]
        refine (List.pairwise_append).mpr ⟨h, List.pairwise_singleton _ m, ?_⟩
        intro a ha b hb
        have hb' : b = m := by simpa using hb
        have ha' : a ∈ acc := List.mem_reverse.mp ha
        have hno : ¬ (s < rectIoU b.rect a.rect) := by
          rw [hb']
          intro hlt
          exact hg (List.any_eq_true.mpr ⟨a, ha', by simpa using hlt⟩)
        have hle : rectIoU b.rect a.rect ≤ s := le_of_not_lt hno
        exact ⟨by rw [rectIoU_comm]; exact hle, hle⟩

/-- C7: the list returned by `match_inventory_regions` is sorted by
non-increasing score, and every two of its rectangles overlap by at most
`suppressIou` (in both IoU orientations — the measure is symmetric). -/
theorem matchInventory_sorted_iou (itemRaws : List (String × List Peak))
    (maxPerItem : ℕ) (suppressIou : ℚ) :
    List.Pairwise (fun a b => b.score ≤ a.score)
      (matchInventoryRegions itemRaws maxPerItem suppressIou) ∧
    List.Pairwise
      (fun a b => rectIoU a.rect b.rect ≤ suppressIou ∧
        rectIoU b.rect a.rect ≤ suppressIou)
      (matchInventoryRegions itemRaws maxPerItem suppressIou) := by
  unfold matchInventoryRegions
  constructor
  · obtain ⟨r, hr, hs⟩ := greedyFilter_split suppressIou
      (sortDesc InvMatch.score (itemRaws.flatMap (fun it =>
        (collectInventoryMatches it.2 maxPerItem).map (fun p =>
          { item := it.1, score := p.score, rect := p.rect })))) []
    rw [hr, List.reverse_nil, List.nil_append]
    exact (sortDesc_pairwise InvMatch.score _).sublist hs
  · exact greedyFilter_pairwise_iou suppressIou _ [] (by simp)

/-! ## The known map as a Python dict (C2, C9) -/

theorem aHas_iff_isSome (m : List (String × Entry)) (k : String) :
    aHas m k = (aGet m k).isSome := by
  unfold aHas aGet
  induction m with
  | nil => rfl
  | cons p t ih =>
      by_cases hp : (p.1 == k) = true
      · rw [List.any_cons,
          @List.find?_cons_of_pos _ (fun q => q.1 == k) p t hp]
        simp [hp]
      · rw [List.any_cons,
          @List.find?_cons_of_neg _ (fun q => q.1 == k) p t hp]
        simp only [hp, Bool.false_or]
        exact ih

theorem find?_mapSet_ne (m : List (String × Entry)) (k k' : String)
    (v : Entry) (h : k' ≠ k) :
    (m.map (fun p => if p.1 == k then (k, v) else p)).find?
        (fun p => p.1 == k') =
      m.find? (fun p => p.1 == k') := by
  induction m with
  | nil => rfl
  | cons p t ih =>
      rw [List.map_cons]
      by_cases hp : (p.1 == k) = true
      · have hp1 : p.1 = k := by simpa using hp
        have h1 : ((k, v).1 == k') = false := beq_eq_false_iff_ne.mpr (Ne.symm h)
        have h2 : (p.1 == k') = false := by rw [hp1]; exact h1
        rw [if_pos hp,
          @List.find?_cons_of_neg _ (fun q => q.1 == k') (k, v) _
            (by simp [h1]),
          @List.find?_cons_of_neg _ (fun q => q.1 == k') p t (by simp [h2])]
        exact ih
      · rw [if_neg hp]
        by_cases hq : (p.1 == k') = true
        · rw [@List.find?_cons_of_pos _ (fun q => q.1 == k') p _ hq,
            @List.find?_cons_of_pos _ (fun q => q.1 == k') p t hq]
        · rw [@List.find?_cons_of_neg _ (fun q => q.1 == k') p _ hq,
            @List.find?_cons_of_neg _ (fun q => q.1 == k') p t hq]
          exact ih

theorem aGet_aSet_ne (m : List (String × Entry)) (k k' : String) (v : Entry)
    (h : k' ≠ k) : aGet (aSet m k v) k' = aGet m k' := by
  unfold aSet
  by_cases hh : aHas m k = true
  · rw [if_pos hh]
    unfold aGet
    rw [find?_mapSet_ne m k k' v h]
  · rw [if_neg hh]
    unfold aGet
    rw [List.find?_append]
    have h1 : ((k, v).1 == k') = false := beq_eq_false_iff_ne.mpr (Ne.symm h)
    have h2 : List.find? (fun p => p.1 == k') [(k, v)] = none := by
      rw [@List.find?_cons_of_neg _ (fun q => q.1 == k') (k, v) []
        (by simp [h1])]
      rfl
    rw [h2]
    simp

theorem find?_mapSet_self (m : List (String × Entry)) (k : String)
    (v : Entry) (hh : m.any (fun p => p.1 == k) = true) :
    (m.map (fun p => if p.1 == k then (k, v) else p)).find?
        (fun p => p.1 == k) = some (k, v) := by
  induction m with
  | nil => cases hh
  | cons p t ih =>
      rw [List.map_cons]
      by_cases hp : (p.1 == k) = true
      · rw [if_pos hp,
          @List.find?_cons_of_pos _ (fun q => q.1 == k) (k, v) _ (by simp)]
      · have ht : t.any (fun p => p.1 == k) = true := by
          simpa [List.any_cons, hp] using hh
        rw [if_neg hp,
          @List.find?_cons_of_neg _ (fun q => q.1 == k) p _ hp]
        exact ih ht

theorem aGet_aSet_self (m : List (String × Entry)) (k : String) (v : Entry)
    (h : aHas m k = true) : aGet (aSet m k v) k = some v := by
  unfold aSet
  rw [if_pos h]
  unfold aGet
  rw [find?_mapSet_self m k v (by simpa [aHas] using h)]
  rfl

theorem aSet_keys (m : List (String × Entry)) (k : String) (v : Entry)
    (h : aHas m k = true) :
    (aSet m k v).map Prod.fst = m.map Prod.fst := by
  unfold aSet
  rw [if_pos h, List.map_map]
  refine List.map_congr_left ?_
  intro p _
  by_cases hp : (p.1 == k) = true
  · have hp1 : p.1 = k := by simpa using hp
    simp [hp, hp1]
  · have hp1 : ¬ (p.1 = k) := by simpa using hp
    simp [hp1]

/-- C2 (amended): renaming onto the canonical key of a different entry fails
with the collision error, performs no re-keying and no disk write, and the
other entry is untouched — but the renamed entry's stored display name has
already been overwritten with the new trimmed name when the error is
raised. -/
theorem editKnown_rename_collision (db : DB) (key : String) (entry : Entry)
    (nm : String) (notes? : Option String) (lps : List (ℤ × Option PyPrice))
    (now : String)
    (hk : aGet db.known key = some entry)
    (hne : normName (pyStrip nm) ≠ "")
    (hkk : normName (pyStrip nm) ≠ key)
    (hcol : (aGet db.known (normName (pyStrip nm))).isSome = true) :
    editKnown key (some nm) notes? lps now db =
      (.error collideErrMsg,
       { db with known := aSet db.known key { entry with name := pyStrip nm } },
       false) ∧
    aGet (aSet db.known key { entry with name := pyStrip nm })
        (normName (pyStrip nm)) = aGet db.known (normName (pyStrip nm)) ∧
    (aSet db.known key { entry with name := pyStrip nm }).map Prod.fst =
      db.known.map Prod.fst ∧
    aGet (aSet db.known key { entry with name := pyStrip nm }) key =
      some { entry with name := pyStrip nm } := by
  have hhas : aHas db.known key = true := by
    rw [aHas_iff_isSome, hk]; rfl
  have hcolHas : aHas db.known (normName (pyStrip nm)) = true := by
    rw [aHas_iff_isSome]; exact hcol
  have hentry1 :
      (if entry.name ≠ pyStrip nm
       then ({ entry with name := pyStrip nm }, true)
       else (entry, false)).1 = { entry with name := pyStrip nm } := by
    by_cases hname : entry.name ≠ pyStrip nm
    · rw [if_pos hname]
    · rw [if_neg hname]
      push_neg at hname
      show entry = { entry with name := pyStrip nm }
      rw [← hname]
  refine ⟨?_, aGet_aSet_ne _ _ _ _ hkk, aSet_keys _ _ _ hhas,
    aGet_aSet_self _ _ _ hhas⟩
  unfold editKnown
  rw [hk]
  unfold editName
  dsimp only
  by_cases hname : entry.name ≠ pyStrip nm
  · rw [if_pos hname]
    dsimp only
    rw [if_pos ⟨hne, hkk⟩, if_pos hcolHas]
  · rw [if_neg hname]
    push_neg at hname
    dsimp only
    rw [if_pos ⟨hne, hkk⟩, if_pos hcolHas]
    have hent : entry = { entry with name := pyStrip nm } := by rw [← hname]
    rw [← hent]

/-- Counterexample for C2 as stated: the collision error is raised, but the
renamed entry's in-memory display name field is no longer what it was. -/
theorem editKnown_rename_collision_cex :
    (editKnown "a" (some "B") none [] "t1" abDb).1 = .error collideErrMsg ∧
    (editKnown "a" (some "B") none [] "t1" abDb).2.2 = false ∧
    aGet (editKnown "a" (some "B") none [] "t1" abDb).2.1.known "a" =
      some { blankTestEntry "a" with name := "B" } ∧
    ({ blankTestEntry "a" with name := "B" } : Entry) ≠ blankTestEntry "a" := by
  refine ⟨rfl, rfl, rfl, by decide⟩

/-- Witness for the amended C2 on a concrete two-entry store. -/
theorem editKnown_rename_collision_case :
    editKnown "a" (some "b") none [] "t1" abDb =
      (.error collideErrMsg,
       DB.mk (aSet abDb.known "a" { blankTestEntry "a" with name := "b" })
         abDb.knownOrder abDb.pending,
       false) ∧
    aGet (aSet abDb.known "a" { blankTestEntry "a" with name := "b" }) "b" =
      aGet abDb.known "b" ∧
    (aSet abDb.known "a" { blankTestEntry "a" with name := "b" }).map
        Prod.fst = abDb.known.map Prod.fst ∧
    aGet (aSet abDb.known "a" { blankTestEntry "a" with name := "b" }) "a" =
      some { blankTestEntry "a" with name := "b" } :=
  editKnown_rename_collision abDb "a" (blankTestEntry "a") "b" none
    [] "t1" (by decide) (by decide) (by decide) (by decide)

/-! ## Pending-queue purging (C3) -/

theorem ensureEntry_pending (name draft now : String) (db : DB) :
    (ensureEntryLocked name draft now db).2.2.2.pending = db.pending := by
  unfold ensureEntryLocked
  dsimp only
  cases hg : aGet db.known (normName name) with
  | none => dsimp only
  | some e => dsimp only; split <;> rfl

/-- C3 (amended): a successful `set_price` for a name with non-empty
canonical form leaves no pending record with that canonical name.
(`add_known` — the other operation the original claim covers — does not
touch the pending queue at all; see the counterexample.) -/
theorem setPrice_purges_pending (name : String) (v : ℚ)
    (potential : Option ℤ) (now draft : String) (db : DB) (key : String)
    (db1 : DB) (hn : normName name ≠ "")
    (h : setPrice name v potential now draft db = .ok (key, db1)) :
    db1.pending.all (fun pr => !(normName pr.name == normName name)) = true := by
  unfold setPrice at h
  by_cases hp : ¬ (0 ≤ potential.getD 0 ∧ potential.getD 0 < 5)
  · rw [if_pos hp] at h
    cases h
  · rw [if_neg hp] at h
    have hdb1 : db1.pending =
        ((removePendingLocked [normName name]
          (ensureEntryLocked name draft now db).2.2.2).2).pending := by
      have := congrArg (fun x =>
        match x with
        | .ok (kdb : String × DB) => kdb.2.pending
        | .error _ => db.pending) h
      simpa using this.symm
    rw [hdb1]
    unfold removePendingLocked
    have htargets : [normName name].filter (fun n => decide (n ≠ "")) =
        [normName name] := by
      simp [List.filter, hn]
    rw [htargets, if_neg (by simp)]
    rw [List.all_eq_true]
    intro pr hpr
    have hmem := List.mem_filter.mp hpr
    have hp2 := hmem.2
    simp only [List.contains_cons, List.contains_nil, Bool.or_false] at hp2
    exact hp2

/-- Counterexample for C3 as stated: `add_known` records a numeric price for
`лук` yet the pending record with the same canonical name survives. -/
theorem addKnown_price_keeps_pending_cex :
    (addKnown "лук" (some (.num 5)) (some 0) "t1" "draft" pendingDb).1 =
      .ok "лук" ∧
    (addKnown "лук" (some (.num 5)) (some 0) "t1" "draft" pendingDb).2.pending =
      [⟨"лук", none, "t0"⟩] ∧
    normName "лук" = "лук" := by
  refine ⟨rfl, by decide, by decide⟩

/-- Witness for the amended C3 at a concrete store with one matching pending
record. -/
theorem setPrice_purges_pending_case :
    ((setPrice "лук" 5 (some 2) "t1" "draft" pendingDb =
        .ok ("лук", ⟨[("лук",
          { name := "лук", notes := none, createdAt := "t1", updatedAt := "t1",
            prices := [none, none, some 5, none, none],
            comments := List.replicate 5 none })], ["лук"], []⟩)) ∧
      (⟨[("лук",
          { name := "лук", notes := none, createdAt := "t1", updatedAt := "t1",
            prices := [none, none, some 5, none, none],
            comments := List.replicate 5 none })], ["лук"], []⟩ : DB).pending.all
        (fun pr => !(normName pr.name == normName "лук")) = true) := by
  refine ⟨rfl, ?_⟩
  exact setPrice_purges_pending "лук" 5 (some 2) "t1" "draft" pendingDb "лук" _
    (by decide) rfl

/-! ## Pending dedup (C5) -/

theorem pendingTouch_some (canonical : String) (pot : Option ℤ)
    (l : List PendingRec) :
    ∀ l', pendingTouch canonical pot l = some l' →
      l'.length = l.length ∧
        pendCount canonical l' = pendCount canonical l := by
  induction l with
  | nil => intro l' h; cases h
  | cons p ps ih =>
      intro l' h
      unfold pendingTouch at h
      by_cases hm : normName p.name = canonical
      · rw [if_pos hm] at h
        injection h with h
        subst h
        refine ⟨by simp, ?_⟩
        unfold pendCount
        rw [List.countP_cons, List.countP_cons]
        have : (if pot.isSome ∧ p.potential = none
            then { p with potential := pot } else p).name = p.name := by
          split <;> rfl
        rw [this]
      · rw [if_neg hm] at h
        cases hh : pendingTouch canonical pot ps with
        | none => rw [hh] at h; cases h
        | some ps' =>
            rw [hh] at h
            injection h with h
            subst h
            obtain ⟨hl, hc⟩ := ih ps' hh
            refine ⟨by simp [hl], ?_⟩
            unfold pendCount at hc ⊢
            rw [List.countP_cons, List.countP_cons, hc]

theorem pendingTouch_none_iff (canonical : String) (pot : Option ℤ)
    (l : List PendingRec) :
    pendingTouch canonical pot l = none ↔ pendCount canonical l = 0 := by
  induction l with
  | nil => simp [pendingTouch, pendCount]
  | cons p ps ih =>
      unfold pendingTouch
      by_cases hm : normName p.name = canonical
      · have hb : (normName p.name == canonical) = true := by simp [hm]
        rw [if_pos hm]
        simp [pendCount, List.countP_cons, hb]
      · have hb : (normName p.name == canonical) = false := by simp [hm]
        rw [if_neg hm]
        rw [Option.map_eq_none']
        unfold pendCount
        rw [List.countP_cons, hb]
        simp only [Bool.false_eq_true, if_false, Nat.add_zero]
        exact ih

theorem ensurePending_known (name : String) (pot : Option ℤ) (now : String)
    (db : DB) : (ensurePending name pot now db).2.known = db.known := by
  unfold ensurePending
  dsimp only
  split
  · rfl
  · split
    · rfl
    · split <;> rfl

theorem ensurePending_count (name : String) (pot : Option ℤ) (now : String)
    (db : DB) (h : pendCount (normName name) db.pending ≤ 1) :
    pendCount (normName name) (ensurePending name pot now db).2.pending ≤ 1 := by
  unfold ensurePending
  dsimp only
  split
  · exact h
  · split
    · exact h
    · cases htouch : pendingTouch (normName name) pot db.pending with
      | some pend =>
          dsimp only
          rw [(pendingTouch_some _ _ _ pend htouch).2]
          exact h
      | none =>
          dsimp only
          have h0 : pendCount (normName name) db.pending = 0 :=
            (pendingTouch_none_iff _ _ _).mp htouch
          unfold pendCount at h0 ⊢
          rw [List.countP_append, h0, List.countP_cons]
          simp only [List.countP_nil, Nat.zero_add, Nat.add_zero]
          split <;> omega

/-- After any `ensure_pending` call for `name`, the state blocks further
insertions of that name: its canonical form is among the known keys or known
names, or it is already pending. -/
theorem ensurePending_blocks (name : String) (pot : Option ℤ) (now : String)
    (db : DB) :
    (normName name ≠ "" ∧
      aHas (ensurePending name pot now db).2.known (normName name) = true) ∨
    (normName name ≠ "" ∧
      (ensurePending name pot now db).2.known.any
        (fun ke => normName ke.2.name == normName name) = true) ∨
    1 ≤ pendCount (normName name) (ensurePending name pot now db).2.pending := by
  unfold ensurePending
  dsimp only
  split
  · next hcond => exact Or.inl ⟨hcond.1, hcond.2⟩
  · split
    · next hcond => exact Or.inr (Or.inl ⟨hcond.1, hcond.2⟩)
    · cases htouch : pendingTouch (normName name) pot db.pending with
      | some pend =>
          refine Or.inr (Or.inr ?_)
          dsimp only
          rw [(pendingTouch_some _ _ _ pend htouch).2]
          have := (pendingTouch_none_iff (normName name) pot db.pending).mpr
          by_contra hlt
          push_neg at hlt
          have h0 : pendCount (normName name) db.pending = 0 := by omega
          rw [this h0] at htouch
          cases htouch
      | none =>
          refine Or.inr (Or.inr ?_)
          dsimp only
          unfold pendCount
          rw [List.countP_append, List.countP_cons]
          have : (normName (pyStrip name) == normName name) = true := by
            simp [normName_pyStrip]
          simp [this]

/-- A state that blocks `name` makes `ensure_pending` a no-op: it returns
`false` and the pending list keeps its length. -/
theorem ensurePending_noop (name : String) (pot : Option ℤ) (now : String)
    (db : DB)
    (h : (normName name ≠ "" ∧ aHas db.known (normName name) = true) ∨
      (normName name ≠ "" ∧
        db.known.any (fun ke => normName ke.2.name == normName name) = true) ∨
      1 ≤ pendCount (normName name) db.pending) :
    (ensurePending name pot now db).1 = false ∧
      (ensurePending name pot now db).2.pending.length = db.pending.length := by
  unfold ensurePending
  dsimp only
  split
  · exact ⟨rfl, rfl⟩
  · split
    · exact ⟨rfl, rfl⟩
    · next hc1 hc2 =>
        have hcount : 1 ≤ pendCount (normName name) db.pending := by
          rcases h with h | h | h
          · exact absurd ⟨h.1, h.2⟩ hc1
          · exact absurd ⟨h.1, h.2⟩ hc2
          · exact h
        cases htouch : pendingTouch (normName name) pot db.pending with
        | some pend =>
            dsimp only
            exact ⟨rfl, (pendingTouch_some _ _ _ pend htouch).1⟩
        | none =>
            have h0 : pendCount (normName name) db.pending = 0 :=
              (pendingTouch_none_iff _ _ _).mp htouch
            omega

/-- C5: starting from a state holding at most one pending record for the
name's canonical form, any sequence of `ensure_pending` calls keeps at most
one such record, and any call made after a first call returns `false` and
appends nothing (the pending list keeps its length). -/
theorem ensurePending_dedup (db : DB) (name : String)
    (calls : List (Option ℤ × String)) (pot1 pot2 : Option ℤ)
    (now1 now2 : String)
    (h : pendCount (normName name) db.pending ≤ 1) :
    pendCount (normName name) (ensurePendingSeq name calls db).pending ≤ 1 ∧
    (ensurePending name pot2 now2 (ensurePending name pot1 now1 db).2).1 =
      false ∧
    (ensurePending name pot2 now2
        (ensurePending name pot1 now1 db).2).2.pending.length =
      (ensurePending name pot1 now1 db).2.pending.length := by
  refine ⟨?_, ?_⟩
  · unfold ensurePendingSeq
    induction calls generalizing db with
    | nil => exact h
    | cons c cs ih =>
        rw [List.foldl_cons]
        exact ih _ (ensurePending_count name c.1 c.2 db h)
  · exact ensurePending_noop name pot2 now2 _
      (ensurePending_blocks name pot1 now1 db)

/-- Witness for C5 on the empty store. -/
theorem ensurePending_dedup_case :
    pendCount (normName "Лук") (ensurePendingSeq "Лук"
      [(none, "t1"), (some 2, "t2"), (none, "t3")] DB.empty).pending ≤ 1 ∧
    (ensurePending "Лук" (some 3) "t5"
      (ensurePending "Лук" none "t4" DB.empty).2).1 = false ∧
    (ensurePending "Лук" (some 3) "t5"
        (ensurePending "Лук" none "t4" DB.empty).2).2.pending.length =
      (ensurePending "Лук" none "t4" DB.empty).2.pending.length :=
  ensurePending_dedup DB.empty "Лук" [(none, "t1"), (some 2, "t2"),
    (none, "t3")] none (some 3) "t4" "t5" (by decide)

/-! ## Exact-name lookup (C4) -/

theorem getD_replicate_none {α : Type} (i : ℕ) :
    (List.replicate 5 (none : Option α)).getD i none = none := by
  rw [List.getD_eq_getElem?_getD, List.getElem?_replicate]
  split <;> rfl

theorem getD_set_self {α : Type} (l : List (Option α)) (i : ℕ) (v : Option α)
    (h : i < l.length) : (l.set i v).getD i none = v := by
  rw [List.getD_eq_getElem?_getD, List.getElem?_set_self (by simpa using h)]
  rfl

/-- Running `find_best`'s loop over entries that include one whose cleaned
name is contained in a candidate line always produces a hit scoring at least
100. -/
theorem findBestFold_hit (fz : Fuzz) (pot : Option ℤ) (nl sl tl : List String)
    (l : List (String × Entry)) (ke : String × Entry) (ln : String)
    (hke : ke ∈ l) (hc : cleanForMatch ke.2.name ≠ "") (hln : ln ∈ nl)
    (hsub : (pySubstr (cleanForMatch ke.2.name) ln ||
      pySubstr ln (cleanForMatch ke.2.name)) = true) :
    ∃ b sc, l.foldl (findBestStep fz pot false nl sl tl) (none, 0) =
      (some b, sc) ∧ 100 ≤ sc := by
  have hsc : 100 ≤ scoreEntry fz pot nl sl tl ke.2 :=
    scoreEntry_ge_100 fz pot nl sl tl ke.2 ln hln hc hsub
  have hge := findBestFold_score_ge fz pot false nl sl tl hke hc rfl (none, 0)
  have h100 : 100 ≤ (l.foldl (findBestStep fz pot false nl sl tl) (none, 0)).2 :=
    le_trans hsc hge
  have hnone := findBestFold_none fz pot false nl sl tl l (none, 0)
    (fun _ => rfl)
  cases hres : l.foldl (findBestStep fz pot false nl sl tl) (none, 0) with
  | mk b sc =>
      rw [hres] at h100 hnone
      cases b with
      | none =>
          exfalso
          have h0 : sc = (0 : ℚ) := hnone rfl
          rw [h0] at h100
          norm_num at h100
      | some bb => exact ⟨bb, sc, rfl, h100⟩

/-- C4 (amended): querying `find_best` with a stored entry's exact display
name (whose cleaned form is non-empty) at the default threshold 80 returns
some entry with a score of at least 90 — but not necessarily the queried
entry: an earlier-iterated entry can tie at the same score and win (see the
counterexample). -/
theorem findBest_exact_name (fz : Fuzz) (db : DB) (k : String) (e : Entry)
    (hke : (k, e) ∈ db.known) (hc : cleanForMatch e.name ≠ "") :
    (findBest fz db [e.name] 80 none false).1.isSome = true ∧
    90 ≤ (findBest fz db [e.name] 80 none false).2 := by
  have hnm : e.name ≠ "" := fun h => hc (by rw [h]; rfl)
  have hfilter : [e.name].filter
      (fun x => decide (x ≠ "" ∧ cleanForMatch x ≠ "")) = [e.name] := by
    simp [hnm, hc]
  unfold findBest
  rw [if_neg (by simp : ¬ (([e.name] : List String).isEmpty = true))]
  dsimp only
  rw [hfilter]
  rw [if_neg (by simp : ¬ (([e.name].map cleanForMatch).isEmpty = true))]
  obtain ⟨b, sc, hfold, h100⟩ := findBestFold_hit fz none
    ([e.name].map cleanForMatch)
    (([e.name].filter (fun x => decide (x ≠ "" ∧ shapeFold x ≠ ""))).map
      shapeFold)
    (([e.name].filter (fun x => x ≠ "")).map
      (fun x => cleanForMatch (translitRuToLat x)))
    db.known (k, e) (cleanForMatch e.name) hke hc (by simp)
    (by simp [pySubstr_self])
  rw [hfold]
  dsimp only
  rw [if_pos (le_trans (by norm_num : (80 : ℚ) ≤ 100) h100)]
  exact ⟨rfl, le_trans (by norm_num) h100⟩

/-- Counterexample for C4 as stated: with entries `лук` (first) and
`лук тени`, querying the exact display name of `лук тени` returns the `лук`
entry — both score 100 and the first-seen entry wins the tie. -/
theorem findBest_exact_name_cex :
    findBest zeroFuzz shadowDb ["Лук тени"] 80 none false =
      (some ("лук", blankTestEntry "лук"), 100) ∧
    ("лук тени", blankTestEntry "Лук тени") ∈ shadowDb.known ∧
    cleanForMatch (blankTestEntry "Лук тени").name ≠ "" ∧
    ("лук", blankTestEntry "лук") ≠
      (("лук тени", blankTestEntry "Лук тени") : String × Entry) := by
  refine ⟨by decide, by decide, by decide, by decide⟩

/-- Witness for the amended C4 on a concrete store. -/
theorem findBest_exact_name_case :
    (findBest zeroFuzz shadowDb [(blankTestEntry "Лук тени").name] 80 none
      false).1.isSome = true ∧
    90 ≤ (findBest zeroFuzz shadowDb [(blankTestEntry "Лук тени").name] 80
      none false).2 :=
  findBest_exact_name zeroFuzz shadowDb "лук тени" (blankTestEntry "Лук тени")
    (by decide) (by decide)

/-! ## Set-then-get round trip (C1) -/

theorem ensureEntry_fresh (name draft now : String) (pend : List PendingRec)
    (hn : normName name ≠ "") :
    ensureEntryLocked name draft now ⟨[], [], pend⟩ =
      (normName name, makeEntry name now, true,
       ⟨[(normName name, makeEntry name now)], [normName name], pend⟩) := by
  unfold ensureEntryLocked
  simp [aGet, aSet, aHas, hn]

theorem aSet_singleton_self (k : String) (x y : Entry) :
    aSet [(k, x)] k y = [(k, y)] := by
  simp [aSet, aHas]

theorem setPrice_fresh (name : String) (v : ℚ) (p : ℤ) (now draft : String)
    (pend : List PendingRec) (hp : 0 ≤ p ∧ p < 5) (hn : normName name ≠ "") :
    setPrice name v (some p) now draft ⟨[], [], pend⟩ =
      .ok (normName name,
        ⟨[(normName name, roundEntry name now p v)], [normName name],
         pend.filter
           (fun pr => !([normName name].contains (normName pr.name)))⟩) := by
  have h4 : (makeEntry name now).priceAt p = none := by
    unfold makeEntry Entry.priceAt
    dsimp only
    rw [if_pos hp]
    exact getD_replicate_none _
  have h5 : ((makeEntry name now).setPriceAt p (some v)).commentAt p = none := by
    unfold makeEntry Entry.setPriceAt Entry.commentAt
    dsimp only
    rw [if_pos hp]
    exact getD_replicate_none _
  have h6 : [normName name].filter (fun n => decide (n ≠ "")) =
      [normName name] := by
    simp [hn]
  unfold setPrice
  dsimp only [Option.getD]
  rw [if_neg (not_not_intro hp)]
  rw [ensureEntry_fresh name draft now pend hn]
  dsimp only
  rw [h4]
  rw [if_pos (by simp : (none : Option ℚ) ≠ some v)]
  dsimp only
  rw [h5]
  rw [if_neg (by simp : ¬ ((none : Option String) ≠ none))]
  unfold removePendingLocked
  dsimp only
  rw [h6]
  rw [if_neg (by simp : ¬ (([normName name] : List String) = []))]
  dsimp only
  rw [if_pos rfl]
  rw [aSet_singleton_self]
  rfl

/-- C1 (amended): on a store with no known entries, for a name whose
canonical form and cleaned form are both non-empty and a slot in 0..4,
`set_price` followed by `get_price` with the same name and slot displays
exactly the stored numeric price.  (With other entries present, or a name
whose cleaned form is empty, the lookup can resolve elsewhere — see the
counterexample.) -/
theorem setPrice_getPrice_roundtrip (fz : Fuzz) (name : String) (v : ℚ)
    (p : ℤ) (now draft : String) (pend : List PendingRec)
    (hp : 0 ≤ p ∧ p < 5) (hn : normName name ≠ "")
    (hc : cleanForMatch name ≠ "") :
    match setPrice name v (some p) now draft ⟨[], [], pend⟩ with
    | .ok kdb => (getPrice fz kdb.2 name (some p)).1 = some (Sum.inr v)
    | .error _ => False := by
  rw [setPrice_fresh name v p now draft pend hp hn]
  dsimp only
  have hnm : name ≠ "" := fun h => hn (by rw [h]; rfl)
  have hc' : cleanForMatch (roundEntry name now p v).name ≠ "" := by
    show cleanForMatch (pyStrip name) ≠ ""
    rw [cleanForMatch_pyStrip]
    exact hc
  have hclean : cleanForMatch (roundEntry name now p v).name =
      cleanForMatch name := by
    show cleanForMatch (pyStrip name) = cleanForMatch name
    exact cleanForMatch_pyStrip name
  have hsc : 100 ≤ scoreEntry fz (some p) ([name].map cleanForMatch)
      (([name].filter (fun x => decide (x ≠ "" ∧ shapeFold x ≠ ""))).map
        shapeFold)
      (([name].filter (fun x => x ≠ "")).map
        (fun x => cleanForMatch (translitRuToLat x)))
      (roundEntry name now p v) :=
    scoreEntry_ge_100 fz (some p) _ _ _ (roundEntry name now p v)
      (cleanForMatch name) (by simp) hc'
      (by rw [hclean]; simp [pySubstr_self])
  have hfilter : [name].filter
      (fun x => decide (x ≠ "" ∧ cleanForMatch x ≠ "")) = [name] := by
    simp [hnm, hc]
  have hfb : (findBest fz
      ⟨[(normName name, roundEntry name now p v)], [normName name],
       pend.filter
         (fun pr => !([normName name].contains (normName pr.name)))⟩
      [name] 80 (some p) false).1 = some (normName name, roundEntry name now p v) := by
    unfold findBest
    rw [if_neg (by simp : ¬ (([name] : List String).isEmpty = true))]
    dsimp only
    rw [hfilter]
    rw [if_neg (by simp : ¬ (([name].map cleanForMatch).isEmpty = true))]
    rw [List.foldl_cons, List.foldl_nil]
    unfold findBestStep
    rw [if_neg hc']
    dsimp only [Bool.false_and]
    rw [if_pos (show ((none : Option (String × Entry)), (0 : ℚ)).2 <
      scoreEntry fz (some p) ([name].map cleanForMatch) _ _
        (roundEntry name now p v) from
      lt_of_lt_of_le (by norm_num) hsc)]
    simp only [Bool.false_and, Bool.false_eq_true, if_false]
    rw [if_pos (le_trans (by norm_num : (80 : ℚ) ≤ 100) hsc)]
  unfold getPrice
  rw [hfb]
  dsimp only [Option.getD]
  rw [if_pos hp]
  unfold lpDisplayValue Entry.commentAt Entry.priceAt roundEntry
  rw [if_pos hp, if_pos hp]
  dsimp only
  rw [getD_replicate_none]
  rw [getD_set_self _ _ _ (by simp; omega)]
  rfl

/-- Counterexample for C1 as stated: the name `???` has a non-empty
canonical form, yet after `set_price("???", 1, 0)` the lookup
`get_price("???", 0)` returns nothing — the cleaned form of the name is
empty, so `find_best` has no usable candidate line. -/
theorem setPrice_getPrice_cex :
    normName "???" ≠ "" ∧
    (match setPrice "???" 1 (some 0) "t1" "draft" DB.empty with
     | .ok kdb => (getPrice zeroFuzz kdb.2 "???" (some 0)).1
     | .error _ => some (Sum.inr 1)) = none := by
  refine ⟨by decide, ?_⟩
  rfl

/-- Witness for the amended C1 at a concrete name, slot and price. -/
theorem setPrice_getPrice_roundtrip_case :
    match setPrice "Лук тени" 5 (some 2) "t1" "draft"
        (⟨[], [], []⟩ : DB) with
    | .ok kdb => (getPrice zeroFuzz kdb.2 "Лук тени" (some 2)).1 =
        some (Sum.inr 5)
    | .error _ => False :=
  setPrice_getPrice_roundtrip zeroFuzz "Лук тени" 5 2 "t1" "draft" []
    (by decide) (by decide) (by decide)

end Pricer
